import Mathlib

/-!
Verification of `check_dbt_descriptions.py`: a tool that scans dbt YAML
schema files, collects the descriptions attached to every column name,
reports columns whose descriptions are inconsistent across files, and can
patch the files in place so that every occurrence carries the most common
non-empty description.

The embedding models a file's raw text as a list of lines, each line a
`List Char` (without the trailing newline).  Parsed YAML documents are
modelled by explicit record types mirroring the shapes the collector walks.
-/

/-- A raw text line, without its trailing newline character. -/
abbrev Line := List Char

def dquoteCh : Char := Char.ofNat 34
def squoteCh : Char := Char.ofNat 39
def bslashCh : Char := Char.ofNat 92
def hashCh : Char := Char.ofNat 35
def colonCh : Char := Char.ofNat 58
def spaceCh : Char := Char.ofNat 32

/-- Python `line.lstrip()`: drop leading whitespace. -/
def lstripL (l : Line) : Line := l.dropWhile Char.isWhitespace

/-- Python `line.strip()`: drop leading and trailing whitespace. -/
def stripL (l : Line) : Line :=
  ((lstripL l).reverse.dropWhile Char.isWhitespace).reverse

/-- Python `get_indent(line)`: `len(line) - len(line.lstrip())`. -/
def get_indent (l : Line) : Nat := l.length - (lstripL l).length

/-- Python `s.startswith(pre)` on lines. -/
def startsWithL (pre l : Line) : Bool := pre.isPrefixOf l

/-- Python `s.endswith(suf)` on lines. -/
def endsWithL (suf l : Line) : Bool := suf.isSuffixOf l

/-- Python `s.split(':', 1)[1]` when a colon is present (everything after the
first colon); the call sites only use it on lines that contain a colon. -/
def after_colon (l : Line) : Line := (l.dropWhile (fun c => c ≠ colonCh)).drop 1

/-- Python `s.split(':', 1)[0]`: everything before the first colon. -/
def before_colon (l : Line) : Line := l.takeWhile (fun c => c ≠ colonCh)

/-- The quote-removal step of `find_child_block`:
`if (val.startswith('"') and val.endswith('"')) or (...'...'...): val = val[1:-1]`. -/
def strip_quotes (v : Line) : Line :=
  if ((startsWithL [dquoteCh] v && endsWithL [dquoteCh] v) ||
      (startsWithL [squoteCh] v && endsWithL [squoteCh] v)) then
    (v.drop 1).dropLast
  else v

/-- Python `not stripped or stripped.startswith('#')`: blank or comment-only line. -/
def line_skippable (l : Line) : Bool :=
  (stripL l).isEmpty || startsWithL [hashCh] (stripL l)

/-- Python `if key and stripped.startswith(f"{key}:")`.  The `Option` models Python's
`None`; the emptiness test models Python truthiness of the string. -/
def key_hit (key : Option Line) (stripped : Line) : Bool :=
  match key with
  | some k => !k.isEmpty && startsWithL (k ++ [colonCh]) stripped
  | none => false

/-- Python `if name and stripped.startswith("- name:")` followed by unquoting the
value after the colon and comparing it with `name`. -/
def name_hit (name : Option Line) (stripped : Line) : Bool :=
  match name with
  | some n =>
      !n.isEmpty && startsWithL ("- name:".toList) stripped &&
        strip_quotes (stripL (after_colon stripped)) == n
  | none => false

/-- One line either triggers the key branch or the name branch. -/
def line_hit (key name : Option Line) (l : Line) : Bool :=
  key_hit key (stripL l) || name_hit name (stripL l)

/-- The scanning loop of `find_child_block`, carrying the absolute index `i`
of the head of `ls`.  Skip blank/comment lines; bail out (`-1`, here `none`)
on a non-skippable line indented at most `d`; otherwise return the first
line hitting the key or name pattern. -/
def fcb_loop (key name : Option Line) (d : Nat) : List Line → Nat → Option Nat
  | [], _ => none
  | l :: rest, i =>
    if line_skippable l then fcb_loop key name d rest (i + 1)
    else if get_indent l ≤ d then none
    else if line_hit key name l then some i
    else fcb_loop key name d rest (i + 1)

/-- Python `find_child_block(lines, parent_idx, key, name)`; `none` models `-1`. -/
def find_child_block (lines : List Line) (parent_idx : Nat)
    (key name : Option Line) : Option Nat :=
  if parent_idx < lines.length then
    fcb_loop key name (get_indent (lines.getD parent_idx []))
      (lines.drop (parent_idx + 1)) (parent_idx + 1)
  else none

/-! ## Patcher (`update_file`) -/

/-- The kind of a fix target: the Python code stores the strings
`'model'` / `'source'` in the `type` field. -/
inductive FixType where
  | model
  | source
deriving DecidableEq, Repr

/-- Python `'models' if fix['type'] == 'model' else 'sources'`. -/
def root_key : FixType → Line
  | .model => "models".toList
  | .source => "sources".toList

/-- One pending edit, the dict
`{type, parent, table, col, new_desc}` built by `check_and_fix`. -/
structure FixEdit where
  kind : FixType
  parent : Option Line
  table : Option Line
  col : Line
  new_desc : Line
deriving DecidableEq, Repr

/-- The scan for the top-level key:
`for i, line in enumerate(lines): if line.strip().startswith(f"{root_key}:"): root_idx = i; break`. -/
def find_root_idx_loop (key : Line) : List Line → Nat → Option Nat
  | [], _ => none
  | l :: rest, i =>
    if startsWithL (key ++ [colonCh]) (stripL l) then some i
    else find_root_idx_loop key rest (i + 1)

def find_root_idx (lines : List Line) (key : Line) : Option Nat :=
  find_root_idx_loop key lines 0

/-- Python `fix['new_desc'].replace('"', '\\"')`. -/
def escape_desc (s : Line) : Line :=
  s.flatMap (fun c => if c = dquoteCh then [bslashCh, dquoteCh] else [c])

/-- Python `f'"{escaped_desc}"'`. -/
def quote_desc (s : Line) : Line := [dquoteCh] ++ escape_desc s ++ [dquoteCh]

/-- Steps 6–7 of one edit: given the index of the column's `- name:` line,
either replace the existing `description:` line inside its block or insert
a fresh one right below the name line, two spaces deeper. -/
def apply_desc (lines : List Line) (col_idx : Nat) (new_desc : Line) : List Line :=
  let new_desc_str := quote_desc new_desc
  match find_child_block lines col_idx (some ("description".toList)) none with
  | some desc_idx =>
      let key_part := before_colon (lines.getD desc_idx [])
      lines.set desc_idx (key_part ++ [colonCh, spaceCh] ++ new_desc_str)
  | none =>
      let pad := List.replicate (get_indent (lines.getD col_idx []) + 2) spaceCh
      lines.insertIdx (col_idx + 1) (pad ++ "description: ".toList ++ new_desc_str)

/-- Step 3 of one edit: a `source` edit descends through `tables:` and the
table's name item; a `model` edit patches directly under the model. -/
def locate_current (lines : List Line) (fx : FixEdit) (parent_idx : Nat) :
    Option Nat :=
  match fx.kind with
  | .source =>
    match find_child_block lines parent_idx (some ("tables".toList)) none with
    | none => none
    | some tables_idx => find_child_block lines tables_idx none fx.table
  | .model => some parent_idx

/-- One iteration of the `for fix in fixes` loop of `update_file`:
`none` means every missing-element branch printed a warning and hit
`continue`, leaving the lines untouched. -/
def apply_one_fix (lines : List Line) (fx : FixEdit) : Option (List Line) :=
  match find_root_idx lines (root_key fx.kind) with
  | none => none
  | some root_idx =>
    match find_child_block lines root_idx none fx.parent with
    | none => none
    | some parent_idx =>
      match locate_current lines fx parent_idx with
      | none => none
      | some current_idx =>
        match find_child_block lines current_idx (some ("columns".toList)) none with
        | none => none
        | some cols_idx =>
          match find_child_block lines cols_idx none (some fx.col) with
          | none => none
          | some col_idx => some (apply_desc lines col_idx fx.new_desc)

/-- The loop body of `update_file`: a successful edit replaces the buffer
and sets `modified`; a failed one leaves the state alone. -/
def update_step (st : List Line × Bool) (fx : FixEdit) : List Line × Bool :=
  match apply_one_fix st.1 fx with
  | some out => (out, true)
  | none => st

/-- The whole fix loop: thread the line buffer through the edits and record
in the Boolean whether any edit set `modified = True`. -/
def update_file_run (lines : List Line) (fixes : List FixEdit) : List Line × Bool :=
  fixes.foldl update_step (lines, false)

/-- Python `update_file`: `some newLines` models "the file is rewritten with these
lines"; `none` models "the file is left untouched" (`modified` stayed
`False`). -/
def update_file (lines : List Line) (fixes : List FixEdit) : Option (List Line) :=
  let r := update_file_run lines fixes
  if r.2 then some r.1 else none

/-! ## Collector (`check_and_fix`, scanning pass) -/

/-- A parsed column entry: `{name?, description?}`.  `none` models an absent
key (`col.get(...)` returning `None`). -/
structure Column where
  name : Option Line
  description : Option Line
deriving DecidableEq, Repr

/-- A parsed model entry: `{name?, columns}`. -/
structure MModel where
  name : Option Line
  columns : List Column
deriving DecidableEq, Repr

/-- A parsed source table entry: `{name?, columns}`. -/
structure STable where
  name : Option Line
  columns : List Column
deriving DecidableEq, Repr

/-- A parsed source entry: `{name?, tables}`. -/
structure SSource where
  name : Option Line
  tables : List STable
deriving DecidableEq, Repr

/-- A parsed document; an absent `models`/`sources` key is the empty list. -/
structure Doc where
  models : List MModel
  sources : List SSource
deriving DecidableEq, Repr

/-- Python `desc = col.get('description') or ''`: an absent description is the
empty string (and an empty string stays empty). -/
def desc_of (c : Column) : Line := c.description.getD []

/-- One location record appended to `col_map[c_name][desc]`. -/
structure Occurrence where
  file : Line
  kind : FixType
  parent : Option Line
  table : Option Line
deriving DecidableEq, Repr

/-- Groups `col_map[col]`: distinct description → occurrences carrying it, keys in
first-insertion order, each occurrence list in insertion order. -/
abbrev DescGroups := List (Line × List Occurrence)

/-- Map `col_map`: column name → description groups, keys in first-insertion
order. -/
abbrev ColMap := List (Line × DescGroups)

/-- Append an occurrence under description `d`, creating the key at the end
when absent (Python dict insertion-order semantics). -/
def addToGroups (g : DescGroups) (d : Line) (o : Occurrence) : DescGroups :=
  match g with
  | [] => [(d, [o])]
  | (d0, os) :: rest =>
    if d0 = d then (d0, os ++ [o]) :: rest else (d0, os) :: addToGroups rest d o

/-- Python `col_map[c_name][desc].append(occ)` on the outer dict. -/
def addToMap (m : ColMap) (c d : Line) (o : Occurrence) : ColMap :=
  match m with
  | [] => [(c, addToGroups [] d o)]
  | (c0, g) :: rest =>
    if c0 = c then (c0, addToGroups g d o) :: rest else (c0, g) :: addToMap rest c d o

/-- One record produced while walking a document: column name, normalized
description, and the occurrence. -/
structure ColRecord where
  col : Line
  desc : Line
  occ : Occurrence
deriving DecidableEq, Repr

/-- The `for model in data['models']` loop body: every column with a truthy
`name` yields a record with `kind='model'`, `parent=m_name`, `table=None`. -/
def model_records (file : Line) (m : MModel) : List ColRecord :=
  m.columns.filterMap (fun c =>
    match c.name with
    | some n =>
        if n.isEmpty then none
        else some ⟨n, desc_of c, ⟨file, .model, m.name, none⟩⟩
    | none => none)

/-- The `for source in data['sources']` loop body (tables nested inside). -/
def source_records (file : Line) (s : SSource) : List ColRecord :=
  s.tables.flatMap (fun t =>
    t.columns.filterMap (fun c =>
      match c.name with
      | some n =>
          if n.isEmpty then none
          else some ⟨n, desc_of c, ⟨file, .source, s.name, t.name⟩⟩
      | none => none))

/-- All records of one parsed file, models first then sources, in document
order. -/
def doc_records (file : Line) (d : Doc) : List ColRecord :=
  d.models.flatMap (model_records file) ++ d.sources.flatMap (source_records file)

def add_records (m : ColMap) (rs : List ColRecord) : ColMap :=
  rs.foldl (fun m r => addToMap m r.col r.desc r.occ) m

/-- The collection pass over all files, in discovery order; a `none` document
is a file whose parse raised (reported and skipped). -/
def collect_files (files : List (Line × Option Doc)) : ColMap :=
  files.foldl
    (fun m f =>
      match f.2 with
      | none => m
      | some d => add_records m (doc_records f.1 d))
    []

/-! ## Reconciler (`check_and_fix`, analysis pass) -/

/-- Python `{d: locs for d, locs in desc_dict.items() if d}`. -/
def non_empty_descs (g : DescGroups) : DescGroups := g.filter (fun p => !p.1.isEmpty)

/-- Insert into a list sorted by descending occurrence count, after every
entry with a count `≥` the new one. -/
def insDesc (p : Line × List Occurrence) : DescGroups → DescGroups
  | [] => [p]
  | q :: rest =>
    if p.2.length < q.2.length then q :: insDesc p rest else p :: q :: rest

/-- Python `sorted(non_empty_descs.items(), key=lambda x: len(x[1]), reverse=True)`:
Python's `sorted` is stable, and with `reverse=True` entries of equal count
keep their original (first-insertion) order; a stable insertion sort is
extensionally the same function. -/
def sorted_descs (g : DescGroups) : DescGroups :=
  (non_empty_descs g).foldr insDesc []

/-- Python `sorted_descs[0]` (the call sites guard against emptiness). -/
def best_pair (g : DescGroups) : Line × List Occurrence :=
  (sorted_descs g).headD ([], [])

/-- Python `best_desc = sorted_descs[0][0]`. -/
def best_desc (g : DescGroups) : Line := (best_pair g).1

/-- The victim loop: for every description group other than the best one,
one fix per occurrence, tagged with the occurrence's file. -/
def col_fixes (col : Line) (g : DescGroups) (best : Line) : List (Line × FixEdit) :=
  g.flatMap (fun p =>
    if p.1 = best then []
    else p.2.map (fun o => (o.file, ⟨o.kind, o.parent, o.table, col, best⟩)))

/-- The `for col, desc_dict in col_map.items()` loop: returns
`inconsistent_count` and the pending fixes in emission order. -/
def reconcile : ColMap → Nat × List (Line × FixEdit)
  | [] => (0, [])
  | (c, g) :: rest =>
    if (non_empty_descs g).isEmpty then reconcile rest
    else if 1 < g.length then
      let r := reconcile rest
      (r.1 + 1, col_fixes c g (best_desc g) ++ r.2)
    else reconcile rest

/-! ## Fix pipeline (`check_and_fix` with `fix_mode=True`) -/

/-- Apply to one file the fixes tagged with its path, in emission order
(the per-file lists of `fixes_by_file`); an unwritten file keeps its lines. -/
def apply_fixes_to_file (fixes : List (Line × FixEdit)) (f : Line × List Line) :
    Line × List Line :=
  let mine := (fixes.filter (fun pf => pf.1 == f.1)).map Prod.snd
  match update_file f.2 mine with
  | some out => (f.1, out)
  | none => f

/-- One run of fix mode over a set of files, each given as
`(path, raw lines)`; `parse` stands for the external YAML parser producing
the tree the collector walks (`none` = parse failure).  Returns
`inconsistent_count` and the resulting files. -/
def run_fix (parse : List Line → Option Doc) (files : List (Line × List Line)) :
    Nat × List (Line × List Line) :=
  let m := collect_files (files.map (fun f => (f.1, parse f.2)))
  let r := reconcile m
  (r.1, files.map (apply_fixes_to_file r.2))

/-! ## Re-parsing a written description value -/

/-- Modelled from the spec: the escape table for re-parsing a double-quoted
scalar value ("round-trips back to the original string when the written
line is re-parsed as a quoted value").  The external YAML reader resolves
`\"`, `\\` and the usual single-letter escapes; an unknown escape is a
parse error. -/
def unescape_char (e : Char) : Option Char :=
  if e = dquoteCh then some dquoteCh
  else if e = bslashCh then some bslashCh
  else if e = Char.ofNat 110 then some (Char.ofNat 10)
  else if e = Char.ofNat 116 then some (Char.ofNat 9)
  else if e = Char.ofNat 98 then some (Char.ofNat 8)
  else none

/-- Modelled from the spec: scan the body of a double-quoted value; the
closing quote must end the value, a backslash starts an escape sequence,
any other character stands for itself. -/
def parse_quoted_body : List Char → Option Line
  | [] => none
  | c :: rest =>
    if c = dquoteCh then
      if rest.isEmpty then some [] else none
    else if c = bslashCh then
      match rest with
      | [] => none
      | e :: rest2 =>
        match unescape_char e with
        | some u => (parse_quoted_body rest2).map (fun t => u :: t)
        | none => none
    else (parse_quoted_body rest).map (fun t => c :: t)

/-- Modelled from the spec: re-parse a written `"..."` value back into the
description string it denotes; `none` is a parse error. -/
def parse_quoted (l : Line) : Option Line :=
  match l with
  | c :: rest => if c = dquoteCh then parse_quoted_body rest else none
  | [] => none

/-! ## Auxiliary definitions used by the statements -/

/-- The first entry of a group list attaining the maximal occurrence count
(the element a stable descending sort puts first). -/
def first_max : DescGroups → Option (Line × List Occurrence)
  | [] => none
  | p :: rest =>
    match first_max rest with
    | none => some p
    | some q => if p.2.length < q.2.length then some q else some p

/-- Modelled from the spec: the description groups of one column after a
fix pass in which every pending edit for the column was applied
successfully and each rewritten line re-parses to the canonical value —
every occurrence of an acted-on column then carries the canonical
description, occurrences of skipped columns are unchanged. -/
def fix_applied_groups (g : DescGroups) : DescGroups :=
  if (non_empty_descs g).isEmpty then g
  else if 1 < g.length then [(best_desc g, g.flatMap (fun p => p.2))]
  else g

/-- Modelled from the spec: the whole collected map after a fully
successful fix pass. -/
def fix_applied_map (m : ColMap) : ColMap :=
  m.map (fun p => (p.1, fix_applied_groups p.2))

/-! ## Concrete example data -/

/-- A schema file whose column `c` has a description and whose column `d`
has none. -/
def exLinesDesc : List Line :=
  ["models:".toList, "  - name: m".toList, "    columns:".toList,
   "      - name: c".toList, "        description: old".toList,
   "      - name: d".toList]

/-- A block whose sought key appears only after the block's boundary. -/
def exLinesBoundary : List Line :=
  ["models:".toList, "  x: 1".toList, "other:".toList, "  key: v".toList]

/-- File `a.yml`: model `m`, column `status` described as `D`. -/
def exLinesA : List Line :=
  ["models:".toList, "  - name: m".toList, "    columns:".toList,
   "      - name: status".toList, "        description: D".toList]

/-- File `b.yml`: a model without a `name` field, column `status`
undescribed. -/
def exLinesB : List Line :=
  ["models:".toList, "  - columns:".toList, "      - name: status".toList]

def exDocA : Doc :=
  ⟨[⟨some "m".toList, [⟨some "status".toList, some "D".toList⟩]⟩], []⟩

def exDocB : Doc :=
  ⟨[⟨none, [⟨some "status".toList, none⟩]⟩], []⟩

/-- Modelled from the spec: the external YAML parser, restricted to the two
concrete example files it is applied to (each maps to the document tree its
text denotes). -/
def ex_parse (ls : List Line) : Option Doc :=
  if ls == exLinesA then some exDocA
  else if ls == exLinesB then some exDocB
  else none

def exFiles : List (Line × List Line) :=
  [("a.yml".toList, exLinesA), ("b.yml".toList, exLinesB)]

def exOcc1 : Occurrence := ⟨"f1".toList, .model, some "m1".toList, none⟩
def exOcc2 : Occurrence := ⟨"f2".toList, .model, some "m2".toList, none⟩
def exOcc3 : Occurrence := ⟨"f3".toList, .source, some "s1".toList, some "t1".toList⟩
def exOcc4 : Occurrence := ⟨"f4".toList, .model, some "m4".toList, none⟩

/-- The tie-break example `{"A": 2, "B": 2}` of the spec. -/
def exTieGroups : DescGroups :=
  [("A".toList, [exOcc1, exOcc2]), ("B".toList, [exOcc3, exOcc4])]

def exTieMap : ColMap := [("c".toList, exTieGroups)]

/-! ## Properties of the block scan -/

lemma getD_drop (ls : List Line) (n k : Nat) :
    (ls.drop n).getD k [] = ls.getD (n + k) [] := by
  simp [List.getD_eq_getElem?_getD, List.getElem?_drop]

lemma fcb_loop_some_spec (key name : Option Line) (d : Nat) :
    ∀ (ls : List Line) (i j : Nat), fcb_loop key name d ls i = some j →
      ∃ k, k < ls.length ∧ j = i + k ∧
        line_skippable (ls.getD k []) = false ∧
        d < get_indent (ls.getD k []) ∧
        line_hit key name (ls.getD k []) = true ∧
        ∀ m, m < k → (line_skippable (ls.getD m []) = true ∨
          (d < get_indent (ls.getD m []) ∧ line_hit key name (ls.getD m []) = false)) := by
  intro ls
  induction ls with
  | nil => intro i j h; simp [fcb_loop] at h
  | cons l rest ih =>
    intro i j h
    simp only [fcb_loop] at h
    by_cases hskip : line_skippable l = true
    · rw [if_pos hskip] at h
      obtain ⟨k, hk, hj, h1, h2, h3, h4⟩ := ih (i + 1) j h
      refine ⟨k + 1, by simpa using Nat.succ_lt_succ hk, by omega,
        by simpa using h1, by simpa using h2, by simpa using h3, ?_⟩
      intro m hm
      cases m with
      | zero => left; simpa using hskip
      | succ m' =>
        have := h4 m' (by omega)
        simpa using this
    · rw [if_neg hskip] at h
      by_cases hind : get_indent l ≤ d
      · rw [if_pos hind] at h; exact absurd h (by simp)
      · rw [if_neg hind] at h
        by_cases hhit : line_hit key name l = true
        · rw [if_pos hhit] at h
          have hij : i = j := by simpa using h
          refine ⟨0, by simp, by omega, ?_, ?_, ?_, ?_⟩
          · simpa using eq_false_of_ne_true hskip
          · simpa using Nat.lt_of_not_le hind
          · simpa using hhit
          · intro m hm; omega
        · rw [if_neg hhit] at h
          obtain ⟨k, hk, hj, h1, h2, h3, h4⟩ := ih (i + 1) j h
          refine ⟨k + 1, by simpa using Nat.succ_lt_succ hk, by omega,
            by simpa using h1, by simpa using h2, by simpa using h3, ?_⟩
          intro m hm
          cases m with
          | zero =>
            right
            constructor
            · simpa using Nat.lt_of_not_le hind
            · simpa using eq_false_of_ne_true hhit
          | succ m' =>
            have := h4 m' (by omega)
            simpa using this

lemma fcb_loop_stops (key name : Option Line) (d : Nat) :
    ∀ (ls : List Line) (i b : Nat), b < ls.length →
      line_skippable (ls.getD b []) = false →
      get_indent (ls.getD b []) ≤ d →
      (∀ m, m < b → line_skippable (ls.getD m []) = true ∨
        (d < get_indent (ls.getD m []) ∧ line_hit key name (ls.getD m []) = false)) →
      fcb_loop key name d ls i = none := by
  intro ls
  induction ls with
  | nil => intro i b hb _ _ _; simp at hb
  | cons l rest ih =>
    intro i b hb hskip hind hbefore
    simp only [fcb_loop]
    cases b with
    | zero =>
      simp only [List.getD_cons_zero] at hskip hind
      rw [if_neg (by simp [hskip]), if_pos hind]
    | succ b' =>
      by_cases hsk0 : line_skippable l = true
      · rw [if_pos hsk0]
        exact ih (i + 1) b' (by simpa using hb) (by simpa using hskip)
          (by simpa using hind)
          (fun m hm => by simpa using hbefore (m + 1) (by omega))
      · have h0 := hbefore 0 (Nat.succ_pos b')
        simp only [List.getD_cons_zero] at h0
        rcases h0 with h0 | ⟨h0a, h0b⟩
        · exact absurd h0 hsk0
        · rw [if_neg hsk0, if_neg (by omega), if_neg (by simp [h0b])]
          exact ih (i + 1) b' (by simpa using hb) (by simpa using hskip)
            (by simpa using hind)
            (fun m hm => by simpa using hbefore (m + 1) (by omega))

/-- Soundness of the block scan: a returned index lies strictly inside the
block rooted at `parent_idx` (deeper indentation, no earlier boundary), is
the first hit, and every line between start and hit is either skippable or
a deeper non-hit. -/
lemma find_child_block_some_spec {lines : List Line} {p : Nat}
    {key name : Option Line} {j : Nat}
    (h : find_child_block lines p key name = some j) :
    p < lines.length ∧ p < j ∧ j < lines.length ∧
      line_skippable (lines.getD j []) = false ∧
      get_indent (lines.getD p []) < get_indent (lines.getD j []) ∧
      line_hit key name (lines.getD j []) = true ∧
      ∀ i, p < i → i < j →
        line_skippable (lines.getD i []) = true ∨
          (get_indent (lines.getD p []) < get_indent (lines.getD i []) ∧
            line_hit key name (lines.getD i []) = false) := by
  unfold find_child_block at h
  by_cases hp : p < lines.length
  · rw [if_pos hp] at h
    obtain ⟨k, hk, hj, h1, h2, h3, h4⟩ := fcb_loop_some_spec _ _ _ _ _ _ h
    rw [List.length_drop] at hk
    rw [getD_drop] at h1 h2 h3
    have hj' : j = p + 1 + k := hj
    refine ⟨hp, by omega, by omega, ?_, ?_, ?_, ?_⟩
    · rw [hj']; exact h1
    · rw [hj']; exact h2
    · rw [hj']; exact h3
    · intro i hi1 hi2
      have hm := h4 (i - (p + 1)) (by omega)
      rw [getD_drop] at hm
      have : p + 1 + (i - (p + 1)) = i := by omega
      rw [this] at hm
      exact hm
  · rw [if_neg hp] at h; exact absurd h (by simp)

/-- Completeness of the boundary check: if some non-skippable line at or
above the parent's indentation closes the block, and no line strictly
inside the block before it is a hit, the scan reports not-found. -/
lemma find_child_block_stops {lines : List Line} {p : Nat}
    {key name : Option Line} {b : Nat}
    (hp : p < lines.length) (hpb : p < b) (hb : b < lines.length)
    (hskip : line_skippable (lines.getD b []) = false)
    (hind : get_indent (lines.getD b []) ≤ get_indent (lines.getD p []))
    (hbefore : ∀ i, p < i → i < b →
      line_skippable (lines.getD i []) = true ∨
        (get_indent (lines.getD p []) < get_indent (lines.getD i []) ∧
          line_hit key name (lines.getD i []) = false)) :
    find_child_block lines p key name = none := by
  unfold find_child_block
  rw [if_pos hp]
  apply fcb_loop_stops key name _ _ _ (b - (p + 1))
  · rw [List.length_drop]; omega
  · rw [getD_drop]
    have : p + 1 + (b - (p + 1)) = b := by omega
    rw [this]; exact hskip
  · rw [getD_drop]
    have : p + 1 + (b - (p + 1)) = b := by omega
    rw [this]; exact hind
  · intro m hm
    rw [getD_drop]
    exact hbefore (p + 1 + m) (by omega) (by omega)

/-- Completeness of the hit case: a hit line strictly inside the block,
preceded only by skippable lines or deeper non-hits, is returned. -/
lemma fcb_loop_finds (key name : Option Line) (d : Nat) :
    ∀ (ls : List Line) (i k : Nat), k < ls.length →
      line_skippable (ls.getD k []) = false →
      d < get_indent (ls.getD k []) →
      line_hit key name (ls.getD k []) = true →
      (∀ m, m < k → line_skippable (ls.getD m []) = true ∨
        (d < get_indent (ls.getD m []) ∧ line_hit key name (ls.getD m []) = false)) →
      fcb_loop key name d ls i = some (i + k) := by
  intro ls
  induction ls with
  | nil => intro i k hk _ _ _ _; simp at hk
  | cons l rest ih =>
    intro i k hk hskip hind hhit hbefore
    simp only [fcb_loop]
    cases k with
    | zero =>
      simp only [List.getD_cons_zero] at hskip hind hhit
      rw [if_neg (by simp [hskip]), if_neg (by omega), if_pos hhit]
      simp
    | succ k' =>
      by_cases hsk0 : line_skippable l = true
      · rw [if_pos hsk0]
        have := ih (i + 1) k' (by simpa using hk) (by simpa using hskip)
          (by simpa using hind) (by simpa using hhit)
          (fun m hm => by simpa using hbefore (m + 1) (by omega))
        rw [this]
        congr 1
        omega
      · have h0 := hbefore 0 (Nat.succ_pos k')
        simp only [List.getD_cons_zero] at h0
        rcases h0 with h0 | ⟨h0a, h0b⟩
        · exact absurd h0 hsk0
        · rw [if_neg hsk0, if_neg (by omega), if_neg (by simp [h0b])]
          have := ih (i + 1) k' (by simpa using hk) (by simpa using hskip)
            (by simpa using hind) (by simpa using hhit)
            (fun m hm => by simpa using hbefore (m + 1) (by omega))
          rw [this]
          congr 1
          omega

lemma find_child_block_finds {lines : List Line} {p : Nat}
    {key name : Option Line} {j : Nat}
    (hp : p < lines.length) (hpj : p < j) (hj : j < lines.length)
    (hskip : line_skippable (lines.getD j []) = false)
    (hind : get_indent (lines.getD p []) < get_indent (lines.getD j []))
    (hhit : line_hit key name (lines.getD j []) = true)
    (hbefore : ∀ i, p < i → i < j →
      line_skippable (lines.getD i []) = true ∨
        (get_indent (lines.getD p []) < get_indent (lines.getD i []) ∧
          line_hit key name (lines.getD i []) = false)) :
    find_child_block lines p key name = some j := by
  unfold find_child_block
  rw [if_pos hp]
  have heq : p + 1 + (j - (p + 1)) = j := by omega
  have := fcb_loop_finds key name (get_indent (lines.getD p []))
    (lines.drop (p + 1)) (p + 1) (j - (p + 1))
    (by rw [List.length_drop]; omega)
    (by rw [getD_drop, heq]; exact hskip)
    (by rw [getD_drop, heq]; exact hind)
    (by rw [getD_drop, heq]; exact hhit)
    (fun m hm => by
      rw [getD_drop]
      exact hbefore (p + 1 + m) (by omega) (by omega))
  rw [this, heq]

/-- Claim C3: the block scan skips blank and comment-only lines, reports
not-found as soon as it reaches a non-blank non-comment line indented at
most as deep as the parent (so it never returns a line outside the block
rooted at `p`, even if a textually matching line exists later), and
otherwise returns the first line of the block that hits the `<key>:`
pattern or is a `- name:` item whose unquoted value equals the sought
name. -/
theorem c3_block_scan_boundary_and_first_match
    (lines : List Line) (p : Nat) (key name : Option Line)
    (hp : p < lines.length) :
    (∀ j, find_child_block lines p key name = some j →
        p < j ∧ j < lines.length ∧
        line_skippable (lines.getD j []) = false ∧
        get_indent (lines.getD p []) < get_indent (lines.getD j []) ∧
        line_hit key name (lines.getD j []) = true ∧
        ∀ i, p < i → i < j →
          line_skippable (lines.getD i []) = true ∨
            (get_indent (lines.getD p []) < get_indent (lines.getD i []) ∧
              line_hit key name (lines.getD i []) = false)) ∧
    (∀ b, p < b → b < lines.length →
        line_skippable (lines.getD b []) = false →
        get_indent (lines.getD b []) ≤ get_indent (lines.getD p []) →
        (∀ i, p < i → i < b →
          line_skippable (lines.getD i []) = true ∨
            (get_indent (lines.getD p []) < get_indent (lines.getD i []) ∧
              line_hit key name (lines.getD i []) = false)) →
        find_child_block lines p key name = none) ∧
    (∀ j, p < j → j < lines.length →
        line_skippable (lines.getD j []) = false →
        get_indent (lines.getD p []) < get_indent (lines.getD j []) →
        line_hit key name (lines.getD j []) = true →
        (∀ i, p < i → i < j →
          line_skippable (lines.getD i []) = true ∨
            (get_indent (lines.getD p []) < get_indent (lines.getD i []) ∧
              line_hit key name (lines.getD i []) = false)) →
        find_child_block lines p key name = some j) := by
  refine ⟨?_, ?_, ?_⟩
  · intro j h
    obtain ⟨_, h2, h3, h4, h5, h6, h7⟩ := find_child_block_some_spec h
    exact ⟨h2, h3, h4, h5, h6, h7⟩
  · intro b hb1 hb2 hb3 hb4 hb5
    exact find_child_block_stops hp hb1 hb2 hb3 hb4 hb5
  · intro j h1 h2 h3 h4 h5 h6
    exact find_child_block_finds hp h1 h2 h3 h4 h5 h6

/-- The boundary behaviour at a concrete input: `key: v` matches textually
but lies beyond the `other:` boundary line, so the scan reports
not-found. -/
theorem c3_block_scan_witness :
    find_child_block exLinesBoundary 0 (some "key".toList) none = none :=
  (c3_block_scan_boundary_and_first_match exLinesBoundary 0
      (some "key".toList) none (by decide)).2.1 2 (by decide) (by decide)
    (by decide) (by decide)
    (fun i hi1 hi2 => by
      have hi : i = 1 := by omega
      subst hi
      right
      exact ⟨by decide, by decide⟩)

/-! ## The scan with neither key nor name -/

lemma line_hit_none_none (l : Line) : line_hit none none l = false := by
  simp [line_hit, key_hit, name_hit]

lemma fcb_loop_none_none (d : Nat) :
    ∀ (ls : List Line) (i : Nat), fcb_loop none none d ls i = none := by
  intro ls
  induction ls with
  | nil => intro i; rfl
  | cons l rest ih =>
    intro i
    simp only [fcb_loop]
    by_cases hsk : line_skippable l = true
    · rw [if_pos hsk]; exact ih (i + 1)
    · rw [if_neg hsk]
      by_cases hind : get_indent l ≤ d
      · rw [if_pos hind]
      · rw [if_neg hind, if_neg (by simp [line_hit_none_none])]
        exact ih (i + 1)

lemma find_child_block_none_none (lines : List Line) (p : Nat) :
    find_child_block lines p none none = none := by
  unfold find_child_block
  by_cases hp : p < lines.length
  · rw [if_pos hp]; exact fcb_loop_none_none _ _ _
  · rw [if_neg hp]

/-- Claim C10: a model or source entry without a `name` field still has its
columns collected (with `parent = None`), but an edit targeting such an
occurrence necessarily fails the parent lookup — `find_child_block` with
`name=None` matches no line — so the edit is dropped with a warning and
the occurrence can never be patched. -/
theorem c10_nameless_entries_unpatchable :
    (∀ (lines : List Line) (p : Nat), find_child_block lines p none none = none) ∧
    (∀ (file : Line) (d : Doc) (mm : MModel) (c : Column) (n : Line),
        mm ∈ d.models → c ∈ mm.columns → c.name = some n → n.isEmpty = false →
        (⟨n, desc_of c, ⟨file, .model, mm.name, none⟩⟩ : ColRecord) ∈
          doc_records file d) ∧
    (∀ (lines : List Line) (fx : FixEdit), fx.parent = none →
        apply_one_fix lines fx = none) := by
  refine ⟨find_child_block_none_none, ?_, ?_⟩
  · intro file d mm c n hmm hc hcn hne
    unfold doc_records
    apply List.mem_append_left
    rw [List.mem_flatMap]
    refine ⟨mm, hmm, ?_⟩
    unfold model_records
    rw [List.mem_filterMap]
    exact ⟨c, hc, by simp [hcn, hne]⟩
  · intro lines fx hp
    unfold apply_one_fix
    rw [hp]
    cases hfr : find_root_idx lines (root_key fx.kind) with
    | none => rfl
    | some root_idx =>
      simp only []
      rw [find_child_block_none_none]

/-- The C10 scenario at a concrete input: file `b.yml` has a nameless model
whose column `status` is collected with `parent = None`, and the pending
edit for it fails. -/
theorem c10_witness :
    ((⟨"status".toList, [], ⟨"b.yml".toList, .model, none, none⟩⟩ : ColRecord) ∈
        doc_records "b.yml".toList exDocB) ∧
    apply_one_fix exLinesB ⟨.model, none, none, "status".toList, "D".toList⟩ = none :=
  ⟨c10_nameless_entries_unpatchable.2.1 "b.yml".toList exDocB
      ⟨none, [⟨some "status".toList, none⟩]⟩ ⟨some "status".toList, none⟩
      "status".toList (by decide) (by decide) (by decide) (by decide),
    c10_nameless_entries_unpatchable.2.2 exLinesB
      ⟨.model, none, none, "status".toList, "D".toList⟩ rfl⟩

/-! ## The top-level key scan -/

lemma find_root_idx_loop_some_spec (key : Line) :
    ∀ (ls : List Line) (i j : Nat), find_root_idx_loop key ls i = some j →
      ∃ k, k < ls.length ∧ j = i + k ∧
        startsWithL (key ++ [colonCh]) (stripL (ls.getD k [])) = true ∧
        ∀ m, m < k → startsWithL (key ++ [colonCh]) (stripL (ls.getD m [])) = false := by
  intro ls
  induction ls with
  | nil => intro i j h; simp [find_root_idx_loop] at h
  | cons l rest ih =>
    intro i j h
    simp only [find_root_idx_loop] at h
    by_cases hm : startsWithL (key ++ [colonCh]) (stripL l) = true
    · rw [if_pos hm] at h
      have hij : i = j := by simpa using h
      exact ⟨0, by simp, by omega, by simpa using hm, fun m hm' => by omega⟩
    · rw [if_neg hm] at h
      obtain ⟨k, hk, hj, h1, h2⟩ := ih (i + 1) j h
      refine ⟨k + 1, by simpa using Nat.succ_lt_succ hk, by omega, by simpa using h1, ?_⟩
      intro m hm'
      cases m with
      | zero => simpa using eq_false_of_ne_true hm
      | succ m' => simpa using h2 m' (by omega)

lemma find_root_idx_loop_none (key : Line) :
    ∀ (ls : List Line) (i : Nat),
      (∀ k, k < ls.length →
        startsWithL (key ++ [colonCh]) (stripL (ls.getD k [])) = false) →
      find_root_idx_loop key ls i = none := by
  intro ls
  induction ls with
  | nil => intro i _; rfl
  | cons l rest ih =>
    intro i h
    have h0 := h 0 (by simp)
    simp only [List.getD_cons_zero] at h0
    simp only [find_root_idx_loop]
    rw [if_neg (by simp [h0])]
    exact ih (i + 1) (fun k hk => by simpa using h (k + 1) (by simpa using Nat.succ_lt_succ hk))

/-- Claim C9: `update_file` locates the top-level `models:`/`sources:` line as
the first line whose stripped text starts with the key, and when no such
line exists the edit is skipped (the warning branch `continue`s). -/
theorem c9_root_key_located_or_edit_skipped :
    (∀ (lines : List Line) (key : Line) (i : Nat),
        find_root_idx lines key = some i →
        i < lines.length ∧
        startsWithL (key ++ [colonCh]) (stripL (lines.getD i [])) = true ∧
        ∀ j, j < i → startsWithL (key ++ [colonCh]) (stripL (lines.getD j [])) = false) ∧
    (∀ (lines : List Line) (fx : FixEdit),
        (∀ i, i < lines.length →
          startsWithL (root_key fx.kind ++ [colonCh]) (stripL (lines.getD i [])) = false) →
        apply_one_fix lines fx = none) := by
  constructor
  · intro lines key i h
    obtain ⟨k, hk, hj, h1, h2⟩ := find_root_idx_loop_some_spec key lines 0 i h
    have hik : i = k := by omega
    subst hik
    exact ⟨hk, h1, fun j hj' => h2 j hj'⟩
  · intro lines fx h
    unfold apply_one_fix
    have hn : find_root_idx lines (root_key fx.kind) = none :=
      find_root_idx_loop_none (root_key fx.kind) lines 0 h
    rw [hn]

/-- The root-key lookup at concrete inputs: `models:` is found at the top of
`a.yml`, and a `source` edit against a file with no `sources:` line is
skipped. -/
theorem c9_witness :
    (0 < exLinesA.length ∧
      startsWithL ("models".toList ++ [colonCh]) (stripL (exLinesA.getD 0 [])) = true ∧
      ∀ j, j < 0 →
        startsWithL ("models".toList ++ [colonCh]) (stripL (exLinesA.getD j [])) = false) ∧
    apply_one_fix exLinesA
      ⟨.source, some "s".toList, some "t".toList, "c".toList, "D".toList⟩ = none :=
  ⟨c9_root_key_located_or_edit_skipped.1 exLinesA "models".toList 0 (by decide),
    c9_root_key_located_or_edit_skipped.2 exLinesA
      ⟨.source, some "s".toList, some "t".toList, "c".toList, "D".toList⟩ (by decide)⟩

/-- Claim C8: a parse failure excludes only that file from collection (the
run continues with the other files), and a per-edit lookup failure drops
only that edit — the remaining edits in the batch proceed from the same
line buffer. -/
theorem c8_parse_and_lookup_failures_are_local :
    (∀ (pre post : List (Line × Option Doc)) (f : Line),
        collect_files (pre ++ (f, none) :: post) = collect_files (pre ++ post)) ∧
    (∀ (lines : List Line) (fx : FixEdit) (rest : List FixEdit),
        apply_one_fix lines fx = none →
        update_file_run lines (fx :: rest) = update_file_run lines rest) := by
  constructor
  · intro pre post f
    simp [collect_files, List.foldl_append]
  · intro lines fx rest h
    simp only [update_file_run, List.foldl_cons, update_step]
    rw [h]

/-- The C8 failure paths at concrete inputs: a bad parse contributes
nothing, and a failing edit leaves the buffer for the rest of the batch. -/
theorem c8_witness :
    apply_one_fix exLinesB ⟨.model, some "zz".toList, none, "status".toList, "D".toList⟩ = none ∧
    update_file_run exLinesB
        [⟨.model, some "zz".toList, none, "status".toList, "D".toList⟩] =
      update_file_run exLinesB [] :=
  ⟨by decide,
    c8_parse_and_lookup_failures_are_local.2 exLinesB
      ⟨.model, some "zz".toList, none, "status".toList, "D".toList⟩ [] (by decide)⟩

/-- Claim C7: a column whose description group has no non-empty description,
or exactly one distinct description value overall, is skipped: it is not
counted as inconsistent and contributes no pending edit. -/
theorem c7_skip_consistent_or_all_empty_columns
    (c : Line) (g : DescGroups) (rest : ColMap)
    (h : (non_empty_descs g).isEmpty = true ∨ g.length = 1) :
    reconcile ((c, g) :: rest) = reconcile rest := by
  rcases h with h | h
  · simp [reconcile, h]
  · by_cases hne : (non_empty_descs g).isEmpty
    · simp [reconcile, hne]
    · simp [reconcile, hne, h]

/-- The skip cases at concrete inputs: a single-description column and an
all-empty column both contribute nothing. -/
theorem c7_witness :
    (((non_empty_descs [("A".toList, [exOcc1])]).isEmpty = true ∨
        ([("A".toList, [exOcc1])] : DescGroups).length = 1) ∧
      reconcile [("c".toList, [("A".toList, [exOcc1])])] = reconcile []) ∧
    reconcile [("d".toList, [([], [exOcc2, exOcc3])])] = reconcile [] :=
  ⟨⟨Or.inr (by decide),
      c7_skip_consistent_or_all_empty_columns "c".toList
        [("A".toList, [exOcc1])] [] (Or.inr (by decide))⟩,
    c7_skip_consistent_or_all_empty_columns "d".toList
      [([], [exOcc2, exOcc3])] [] (Or.inl (by decide))⟩

/-! ## Escaping and re-parsing -/

lemma parse_quoted_body_cons_lit (c : Char) (rest : List Char)
    (hc1 : c ≠ dquoteCh) (hc2 : c ≠ bslashCh) :
    parse_quoted_body (c :: rest) =
      (parse_quoted_body rest).map (fun t => c :: t) := by
  rw [parse_quoted_body.eq_def]
  simp [hc1, hc2]

lemma parse_quoted_body_cons_esc (e : Char) (rest : List Char) (u : Char)
    (hu : unescape_char e = some u) :
    parse_quoted_body (bslashCh :: e :: rest) =
      (parse_quoted_body rest).map (fun t => u :: t) := by
  rw [parse_quoted_body.eq_def]
  simp [hu, show ¬(bslashCh = dquoteCh) by decide]

lemma escape_desc_cons_dq (t : List Char) :
    escape_desc (dquoteCh :: t) = bslashCh :: dquoteCh :: escape_desc t := by
  simp [escape_desc]

lemma escape_desc_cons_lit (c : Char) (t : List Char) (hc : c ≠ dquoteCh) :
    escape_desc (c :: t) = c :: escape_desc t := by
  simp [escape_desc, hc]

lemma parse_quoted_body_escape (s : Line) (hb : bslashCh ∉ s) :
    parse_quoted_body (escape_desc s ++ [dquoteCh]) = some s := by
  induction s with
  | nil => rfl
  | cons c t ih =>
    have hbc : c ≠ bslashCh := fun h => hb (h ▸ List.mem_cons_self c t)
    have hbt : bslashCh ∉ t := fun h => hb (List.mem_cons_of_mem c h)
    by_cases hc : c = dquoteCh
    · subst hc
      rw [escape_desc_cons_dq, List.cons_append, List.cons_append,
        parse_quoted_body_cons_esc dquoteCh _ dquoteCh (by simp [unescape_char]),
        ih hbt]
      rfl
    · rw [escape_desc_cons_lit c t hc, List.cons_append,
        parse_quoted_body_cons_lit c _ hc hbc, ih hbt]
      rfl

/-- Claim C6, amended: for a description containing a double quote but no
backslash, the written value escapes every internal double quote and
re-parses to the original string. -/
theorem c6_amended_roundtrip_without_backslash
    (s : Line) (hq : dquoteCh ∈ s) (hb : bslashCh ∉ s) :
    parse_quoted (quote_desc s) = some s := by
  have := parse_quoted_body_escape s hb
  simp only [quote_desc, List.cons_append, parse_quoted, if_pos rfl]
  simpa using this

/-- The amended C6 at a concrete input: `a"b` round-trips. -/
theorem c6_amended_witness :
    dquoteCh ∈ [Char.ofNat 97, dquoteCh, Char.ofNat 98] ∧
    bslashCh ∉ [Char.ofNat 97, dquoteCh, Char.ofNat 98] ∧
    parse_quoted (quote_desc [Char.ofNat 97, dquoteCh, Char.ofNat 98]) =
      some [Char.ofNat 97, dquoteCh, Char.ofNat 98] :=
  ⟨by decide, by decide,
    c6_amended_roundtrip_without_backslash _ (by decide) (by decide)⟩

/-- Claim C6 is false as stated: the description `\"` contains a double
quote, but only the quote is escaped, so the written value `"\\""` does
not re-parse to the original string (the escaped backslash closes the
value early and the parse fails). -/
theorem c6_counterexample :
    dquoteCh ∈ [bslashCh, dquoteCh] ∧
    parse_quoted (quote_desc [bslashCh, dquoteCh]) ≠ some [bslashCh, dquoteCh] := by
  constructor
  · decide
  · decide

/-! ## Properties of the stable descending sort -/

lemma insDesc_head? (p q : Line × List Occurrence) (r : DescGroups) :
    (insDesc p (q :: r)).head? =
      some (if p.2.length < q.2.length then q else p) := by
  by_cases h : p.2.length < q.2.length
  · simp [insDesc, h]
  · simp [insDesc, h]

lemma head?_foldr_insDesc (l : DescGroups) :
    (l.foldr insDesc []).head? = first_max l := by
  induction l with
  | nil => rfl
  | cons p rest ih =>
    simp only [List.foldr_cons]
    cases hr : rest.foldr insDesc [] with
    | nil =>
      have hfm : first_max rest = none := by rw [← ih, hr]; rfl
      simp [insDesc, first_max, hfm]
    | cons q r =>
      have hfm : first_max rest = some q := by rw [← ih, hr]; rfl
      rw [insDesc_head?]
      simp only [first_max, hfm]
      by_cases h : p.2.length < q.2.length <;> simp [h]

lemma first_max_eq_none {l : DescGroups} : first_max l = none ↔ l = [] := by
  cases l with
  | nil => simp [first_max]
  | cons p rest =>
    simp only [first_max]
    cases hr : first_max rest with
    | none => simp
    | some q => by_cases h : p.2.length < q.2.length <;> simp [h]

lemma first_max_mem {l : DescGroups} {q : Line × List Occurrence}
    (h : first_max l = some q) : q ∈ l := by
  induction l generalizing q with
  | nil => simp [first_max] at h
  | cons p rest ih =>
    simp only [first_max] at h
    split at h
    · simp only [Option.some.injEq] at h
      exact h ▸ List.mem_cons_self p rest
    · rename_i q0 heq
      by_cases hpq : p.2.length < q0.2.length
      · rw [if_pos hpq] at h
        simp only [Option.some.injEq] at h
        subst h
        exact List.mem_cons_of_mem p (ih heq)
      · rw [if_neg hpq] at h
        simp only [Option.some.injEq] at h
        exact h ▸ List.mem_cons_self p rest

lemma first_max_max {l : DescGroups} {q : Line × List Occurrence}
    (h : first_max l = some q) : ∀ p ∈ l, p.2.length ≤ q.2.length := by
  induction l generalizing q with
  | nil => simp [first_max] at h
  | cons p rest ih =>
    simp only [first_max] at h
    intro x hx
    split at h
    · rename_i heq
      rcases List.mem_cons.mp hx with hx | hx
      · subst hx
        simp only [Option.some.injEq] at h
        exact h ▸ le_refl _
      · rw [first_max_eq_none.mp heq] at hx
        simp at hx
    · rename_i q0 heq
      by_cases hpq : p.2.length < q0.2.length
      · rw [if_pos hpq] at h
        simp only [Option.some.injEq] at h
        subst h
        rcases List.mem_cons.mp hx with hx | hx
        · subst hx
          exact le_of_lt hpq
        · exact ih heq x hx
      · rw [if_neg hpq] at h
        simp only [Option.some.injEq] at h
        subst h
        rcases List.mem_cons.mp hx with hx | hx
        · subst hx
          exact le_refl _
        · exact le_trans (ih heq x hx) (Nat.le_of_not_lt hpq)

lemma first_max_first {l : DescGroups} {q : Line × List Occurrence}
    (h : first_max l = some q) :
    ∃ i, i < l.length ∧ l.getD i ([], []) = q ∧
      ∀ j, j < i → (l.getD j ([], [])).2.length < q.2.length := by
  induction l generalizing q with
  | nil => simp [first_max] at h
  | cons p rest ih =>
    simp only [first_max] at h
    split at h
    · simp only [Option.some.injEq] at h
      exact ⟨0, by simp, by simpa using h, fun j hj => by omega⟩
    · rename_i q0 heq
      by_cases hpq : p.2.length < q0.2.length
      · rw [if_pos hpq] at h
        simp only [Option.some.injEq] at h
        subst h
        obtain ⟨i0, hi0, hget, hlt⟩ := ih heq
        refine ⟨i0 + 1, by simpa using Nat.succ_lt_succ hi0, by simpa using hget, ?_⟩
        intro j hj
        cases j with
        | zero => simpa using hpq
        | succ j' => simpa using hlt j' (by omega)
      · rw [if_neg hpq] at h
        simp only [Option.some.injEq] at h
        exact ⟨0, by simp, by simpa using h, fun j hj => by omega⟩

lemma best_pair_eq_first_max {g : DescGroups}
    (hne : (non_empty_descs g).isEmpty = false) :
    first_max (non_empty_descs g) = some (best_pair g) := by
  have hne' : non_empty_descs g ≠ [] := by
    intro h
    rw [h] at hne
    simp at hne
  cases hq : first_max (non_empty_descs g) with
  | none => exact absurd (first_max_eq_none.mp hq) hne'
  | some q =>
    have hh : (sorted_descs g).head? = some q := by
      rw [sorted_descs, head?_foldr_insDesc, hq]
    have hbq : best_pair g = q := by
      rw [best_pair, List.headD_eq_head?_getD, hh]
      rfl
    rw [hbq]

/-! ## Membership in the emitted fixes -/

lemma mem_col_fixes {c best d : Line} {g : DescGroups} {os : List Occurrence}
    {o : Occurrence} (hg : (d, os) ∈ g) (hd : d ≠ best) (ho : o ∈ os) :
    (o.file, (⟨o.kind, o.parent, o.table, c, best⟩ : FixEdit)) ∈
      col_fixes c g best := by
  unfold col_fixes
  rw [List.mem_flatMap]
  refine ⟨(d, os), hg, ?_⟩
  rw [if_neg hd]
  exact List.mem_map_of_mem _ ho

lemma reconcile_fixes_superset {m : ColMap} {c : Line} {g : DescGroups}
    (hmem : (c, g) ∈ m)
    (hne : (non_empty_descs g).isEmpty = false) (hlen : 1 < g.length) :
    ∀ x ∈ col_fixes c g (best_desc g), x ∈ (reconcile m).2 := by
  induction m with
  | nil => simp at hmem
  | cons p rest ih =>
    intro x hx
    rcases List.mem_cons.mp hmem with heq | hmem'
    · obtain rfl := heq.symm
      simp only [reconcile]
      rw [if_neg (by simp [hne]), if_pos hlen]
      exact List.mem_append_left _ hx
    · cases p with
    | mk c0 g0 =>
      by_cases h1 : (non_empty_descs g0).isEmpty
      · simp only [reconcile]
        rw [if_pos h1]
        exact ih hmem' x hx
      · by_cases h2 : 1 < g0.length
        · simp only [reconcile]
          rw [if_neg h1, if_pos h2]
          exact List.mem_append_right _ (ih hmem' x hx)
        · simp only [reconcile]
          rw [if_neg h1, if_neg h2]
          exact ih hmem' x hx

/-- Claim C1: for an inconsistent column (more than one distinct description,
at least one non-empty) the canonical choice `best_pair` is a non-empty
description of maximal occurrence count, it is the *earliest-inserted*
group among those of maximal count (Python's stable `sorted` with
`reverse=True`; group insertion order is first-occurrence order in
file-discovery-then-document order), and the reconciler emits one pending
edit, carrying the canonical text, for every occurrence in every group
whose description differs from the canonical one — including the
empty-description group. -/
theorem c1_canonical_choice_and_pending_edits
    (m : ColMap) (c : Line) (g : DescGroups)
    (hmem : (c, g) ∈ m)
    (hne : (non_empty_descs g).isEmpty = false)
    (hlen : 1 < g.length) :
    best_pair g ∈ non_empty_descs g ∧
    (∀ p ∈ non_empty_descs g, p.2.length ≤ (best_pair g).2.length) ∧
    (∃ i, i < (non_empty_descs g).length ∧
        (non_empty_descs g).getD i ([], []) = best_pair g ∧
        ∀ j, j < i →
          ((non_empty_descs g).getD j ([], [])).2.length <
            (best_pair g).2.length) ∧
    (∀ d os, (d, os) ∈ g → d ≠ best_desc g → ∀ o ∈ os,
        (o.file, (⟨o.kind, o.parent, o.table, c, best_desc g⟩ : FixEdit)) ∈
          (reconcile m).2) := by
  have hfm := best_pair_eq_first_max hne
  refine ⟨first_max_mem hfm, first_max_max hfm, first_max_first hfm, ?_⟩
  intro d os hg hd o ho
  exact reconcile_fixes_superset hmem hne hlen _ (mem_col_fixes hg hd ho)

/-- The spec's tie-break example `{"A": 2, "B": 2}` at concrete inputs:
`A` (inserted first) wins, and the occurrences carrying `B` are scheduled
for edits rewriting them to `A`. -/
theorem c1_witness :
    best_desc exTieGroups = "A".toList ∧
    ("f3".toList,
        (⟨.source, some "s1".toList, some "t1".toList, "c".toList,
          "A".toList⟩ : FixEdit)) ∈
      (reconcile exTieMap).2 :=
  ⟨by decide,
    (c1_canonical_choice_and_pending_edits exTieMap "c".toList exTieGroups
        (by decide) (by decide) (by decide)).2.2.2 "B".toList
      [exOcc3, exOcc4] (by decide) (by decide) exOcc3 (by decide)⟩

/-! ## The patch step on one column -/

lemma before_colon_stable (l rest : Line) :
    before_colon (before_colon l ++ colonCh :: rest) = before_colon l := by
  induction l with
  | nil => simp [before_colon]
  | cons c t ih =>
    by_cases hc : c = colonCh
    · subst hc
      simp [before_colon]
    · simp only [before_colon, List.takeWhile_cons] at ih ⊢
      rw [if_pos (by simpa using hc)]
      simpa [hc] using ih

lemma dropWhile_replicate_space (k : Nat) (t : List Char) :
    (List.replicate k spaceCh ++ t).dropWhile Char.isWhitespace =
      t.dropWhile Char.isWhitespace := by
  induction k with
  | zero => simp
  | succ k ih =>
    rw [List.replicate_succ, List.cons_append,
      List.dropWhile_cons_of_pos (by decide)]
    exact ih

lemma get_indent_pad (k : Nat) (q : Line) :
    get_indent (List.replicate k spaceCh ++ "description: ".toList ++ q) = k := by
  have h1 : (List.replicate k spaceCh ++ "description: ".toList ++ q).dropWhile
        Char.isWhitespace = "description: ".toList ++ q := by
    rw [List.append_assoc, dropWhile_replicate_space, List.dropWhile_append]
    rw [if_neg (by decide)]
    rfl
  unfold get_indent lstripL
  rw [h1]
  simp [List.length_append, List.length_replicate]

/-- Claim C2: applying one edit, when a `description:` line exists in the
column's block the patcher rewrites only that line, keeping the text before
the first colon (indentation and key token) exactly and writing the value
double-quoted; when none exists it inserts
`description: "<escaped value>"` immediately after the column's name line,
indented exactly two spaces deeper than that line. -/
theorem c2_replace_or_insert_description
    (lines : List Line) (col_idx : Nat) (nd : Line)
    (hcol : col_idx < lines.length) :
    (∀ di, find_child_block lines col_idx (some ("description".toList)) none = some di →
        apply_desc lines col_idx nd =
          lines.set di
            (before_colon (lines.getD di []) ++ [colonCh, spaceCh] ++ quote_desc nd) ∧
        (apply_desc lines col_idx nd).length = lines.length ∧
        (apply_desc lines col_idx nd).getD di [] =
          before_colon (lines.getD di []) ++ [colonCh, spaceCh] ++ quote_desc nd ∧
        before_colon ((apply_desc lines col_idx nd).getD di []) =
          before_colon (lines.getD di []) ∧
        ∀ j, j ≠ di → (apply_desc lines col_idx nd).getD j [] = lines.getD j []) ∧
    (find_child_block lines col_idx (some ("description".toList)) none = none →
        apply_desc lines col_idx nd =
          lines.insertIdx (col_idx + 1)
            (List.replicate (get_indent (lines.getD col_idx []) + 2) spaceCh ++
              "description: ".toList ++ quote_desc nd) ∧
        (apply_desc lines col_idx nd).getD (col_idx + 1) [] =
          List.replicate (get_indent (lines.getD col_idx []) + 2) spaceCh ++
            "description: ".toList ++ quote_desc nd ∧
        get_indent ((apply_desc lines col_idx nd).getD (col_idx + 1) []) =
          get_indent (lines.getD col_idx []) + 2 ∧
        ∀ j, j ≤ col_idx → (apply_desc lines col_idx nd).getD j [] = lines.getD j []) := by
  constructor
  · intro di h
    have hdi : di < lines.length := (find_child_block_some_spec h).2.2.1
    have heq : apply_desc lines col_idx nd =
        lines.set di
          (before_colon (lines.getD di []) ++ [colonCh, spaceCh] ++ quote_desc nd) := by
      unfold apply_desc
      rw [h]
    have hget : (apply_desc lines col_idx nd).getD di [] =
        before_colon (lines.getD di []) ++ [colonCh, spaceCh] ++ quote_desc nd := by
      rw [heq, List.getD_eq_getElem?_getD, List.getElem?_set_self hdi]
      rfl
    refine ⟨heq, by rw [heq]; exact List.length_set _ _ _, hget, ?_, ?_⟩
    · rw [hget, List.append_assoc]
      exact before_colon_stable _ _
    · intro j hj
      rw [heq, List.getD_eq_getElem?_getD, List.getElem?_set_ne (Ne.symm hj),
        ← List.getD_eq_getElem?_getD]
  · intro h
    have heq : apply_desc lines col_idx nd =
        lines.insertIdx (col_idx + 1)
          (List.replicate (get_indent (lines.getD col_idx []) + 2) spaceCh ++
            "description: ".toList ++ quote_desc nd) := by
      unfold apply_desc
      rw [h]
    have hlen : col_idx + 1 ≤ lines.length := hcol
    have hget : (apply_desc lines col_idx nd).getD (col_idx + 1) [] =
        List.replicate (get_indent (lines.getD col_idx []) + 2) spaceCh ++
          "description: ".toList ++ quote_desc nd := by
      rw [heq, List.getD_eq_getElem?_getD,
        List.getElem?_eq_getElem (by rw [List.length_insertIdx _ _ hlen]; omega),
        List.getElem_insertIdx_self _ _ _ hlen]
      rfl
    refine ⟨heq, hget, ?_, ?_⟩
    · rw [hget]
      exact get_indent_pad _ _
    · intro j hj
      have hjl : j < lines.length := by omega
      rw [heq, List.getD_eq_getElem?_getD,
        List.getElem?_eq_getElem (by rw [List.length_insertIdx _ _ hlen]; omega),
        List.getElem_insertIdx_of_lt _ _ _ _ (by omega) hjl,
        List.getD_eq_getElem?_getD, List.getElem?_eq_getElem hjl]

/-- The two patch branches at concrete inputs: column `c` (has a
description line) gets a replacement at line 4; column `d` (no description
line) gets an insertion right below its name line. -/
theorem c2_witness :
    (3 < exLinesDesc.length ∧
      apply_desc exLinesDesc 3 "N".toList =
        exLinesDesc.set 4
          (before_colon (exLinesDesc.getD 4 []) ++ [colonCh, spaceCh] ++
            quote_desc "N".toList)) ∧
    apply_desc exLinesDesc 5 "N".toList =
      exLinesDesc.insertIdx 6
        (List.replicate (get_indent (exLinesDesc.getD 5 []) + 2) spaceCh ++
          "description: ".toList ++ quote_desc "N".toList) :=
  ⟨⟨by decide,
      ((c2_replace_or_insert_description exLinesDesc 3 "N".toList (by decide)).1 4
        (by decide)).1⟩,
    ((c2_replace_or_insert_description exLinesDesc 5 "N".toList (by decide)).2
      (by decide)).1⟩

/-! ## Frame properties of the fix loop -/

lemma apply_one_fix_some_elim {lines : List Line} {fx : FixEdit} {out : List Line}
    (h : apply_one_fix lines fx = some out) :
    ∃ cols_idx col_idx,
      find_child_block lines cols_idx none (some fx.col) = some col_idx ∧
      out = apply_desc lines col_idx fx.new_desc := by
  unfold apply_one_fix at h
  split at h
  · exact absurd h (by simp)
  · split at h
    · exact absurd h (by simp)
    · split at h
      · exact absurd h (by simp)
      · split at h
        · exact absurd h (by simp)
        · rename_i cols_idx h4
          split at h
          · exact absurd h (by simp)
          · rename_i col_idx h5
            simp only [Option.some.injEq] at h
            exact ⟨cols_idx, col_idx, h5, h.symm⟩

lemma update_step_keeps_true (st : List Line × Bool) (fx : FixEdit)
    (h : st.2 = true) : (update_step st fx).2 = true := by
  unfold update_step
  split
  · rfl
  · exact h

lemma foldl_update_step_true (fixes : List FixEdit) :
    ∀ st : List Line × Bool, st.2 = true →
      (fixes.foldl update_step st).2 = true := by
  induction fixes with
  | nil => intro st h; exact h
  | cons fx rest ih =>
    intro st h
    rw [List.foldl_cons]
    exact ih _ (update_step_keeps_true st fx h)

lemma update_file_run_false_untouched :
    ∀ (fixes : List FixEdit) (lines : List Line),
      (update_file_run lines fixes).2 = false →
      (update_file_run lines fixes).1 = lines := by
  intro fixes
  induction fixes with
  | nil => intro lines _; rfl
  | cons fx rest ih =>
    intro lines h
    rw [update_file_run, List.foldl_cons] at h ⊢
    cases happ : apply_one_fix lines fx with
    | some out =>
      have hstep : update_step (lines, false) fx = (out, true) := by
        unfold update_step
        rw [happ]
      rw [hstep] at h
      exact absurd (foldl_update_step_true rest (out, true) rfl) (by rw [h]; simp)
    | none =>
      have hstep : update_step (lines, false) fx = (lines, false) := by
        unfold update_step
        rw [happ]
      rw [hstep] at h ⊢
      exact ih lines h

/-- Claim C4: `update_file` writes back only when at least one edit
succeeded — a batch whose edits all failed, and a file with no pending
edits, leave the file untouched — and every successful edit changes the
buffer by a single replaced or a single inserted line. -/
theorem c4_write_only_on_success_and_single_line_scope :
    (∀ lines : List Line, update_file lines [] = none) ∧
    (∀ (lines : List Line) (fixes : List FixEdit),
        (update_file_run lines fixes).2 = false →
        (update_file_run lines fixes).1 = lines ∧ update_file lines fixes = none) ∧
    (∀ (lines out : List Line) (fx : FixEdit),
        apply_one_fix lines fx = some out →
        (∃ di r, di < lines.length ∧ out = lines.set di r) ∨
        (∃ i nl, i ≤ lines.length ∧ out = lines.insertIdx i nl)) := by
  refine ⟨fun lines => rfl, ?_, ?_⟩
  · intro lines fixes h
    refine ⟨update_file_run_false_untouched fixes lines h, ?_⟩
    simp only [update_file]
    rw [h]
    rfl
  · intro lines out fx h
    obtain ⟨cols_idx, col_idx, h5, hout⟩ := apply_one_fix_some_elim h
    have hcol : col_idx < lines.length := (find_child_block_some_spec h5).2.2.1
    subst hout
    unfold apply_desc
    cases hdesc : find_child_block lines col_idx (some ("description".toList)) none with
    | some di =>
      have hdi : di < lines.length := (find_child_block_some_spec hdesc).2.2.1
      exact Or.inl ⟨di, _, hdi, rfl⟩
    | none =>
      exact Or.inr ⟨col_idx + 1, _, hcol, rfl⟩

/-- The C4 branches at concrete inputs: an empty batch and an all-failing
batch write nothing, and a successful edit is a single-line replacement. -/
theorem c4_witness :
    update_file exLinesDesc [] = none ∧
    ((update_file_run exLinesB
          [⟨.model, some "zz".toList, none, "status".toList, "D".toList⟩]).1 =
        exLinesB ∧
      update_file exLinesB
          [⟨.model, some "zz".toList, none, "status".toList, "D".toList⟩] = none) ∧
    ((∃ di r, di < exLinesDesc.length ∧
        exLinesDesc.set 4 "        description: \"N\"".toList =
          exLinesDesc.set di r) ∨
      (∃ i nl, i ≤ exLinesDesc.length ∧
        exLinesDesc.set 4 "        description: \"N\"".toList =
          exLinesDesc.insertIdx i nl)) :=
  ⟨c4_write_only_on_success_and_single_line_scope.1 exLinesDesc,
    c4_write_only_on_success_and_single_line_scope.2.1 exLinesB
      [⟨.model, some "zz".toList, none, "status".toList, "D".toList⟩] (by decide),
    c4_write_only_on_success_and_single_line_scope.2.2 exLinesDesc
      (exLinesDesc.set 4 "        description: \"N\"".toList)
      ⟨.model, some "m".toList, none, "c".toList, "N".toList⟩ (by decide)⟩

/-! ## Idempotence of the fix pass -/

lemma best_desc_nonempty {g : DescGroups}
    (hne : (non_empty_descs g).isEmpty = false) :
    (best_desc g).isEmpty = false := by
  have hfm := best_pair_eq_first_max hne
  have hmem := first_max_mem hfm
  have hf := List.mem_filter.mp hmem
  simpa [best_desc] using hf.2

/-- Claim C5, amended: if every pending edit of the first run is applied
successfully and each rewritten line re-parses to its canonical value —
so the collected map of the second run is `fix_applied_map` of the first
run's map — then the second run's reconciler reports zero inconsistencies
and emits no edits (hence changes no files). -/
theorem c5_amended_second_run_clean_after_successful_fixes (m : ColMap) :
    reconcile (fix_applied_map m) = (0, []) := by
  induction m with
  | nil => rfl
  | cons p rest ih =>
    cases p with
    | mk c g =>
      simp only [fix_applied_map, List.map_cons] at ih ⊢
      by_cases h1 : (non_empty_descs g).isEmpty = true
      · rw [show fix_applied_groups g = g from by
          unfold fix_applied_groups; rw [if_pos h1]]
        simp only [reconcile]
        rw [if_pos h1]
        exact ih
      · by_cases h2 : 1 < g.length
        · have hfg : fix_applied_groups g =
              [(best_desc g, g.flatMap (fun p => p.2))] := by
            unfold fix_applied_groups
            rw [if_neg h1, if_pos h2]
          rw [hfg]
          simp only [reconcile]
          have hb := best_desc_nonempty (eq_false_of_ne_true h1)
          have hne1 : non_empty_descs [(best_desc g, g.flatMap (fun p => p.2))] =
              [(best_desc g, g.flatMap (fun p => p.2))] := by
            unfold non_empty_descs
            simp [hb]
          rw [if_neg (by rw [hne1]; simp), if_neg (by simp)]
          exact ih
        · have hfg : fix_applied_groups g = g := by
            unfold fix_applied_groups
            rw [if_neg h1, if_neg h2]
          rw [hfg]
          simp only [reconcile]
          rw [if_neg h1, if_neg h2]
          exact ih

/-- Claim C5 is false as stated: on the concrete tree `exFiles` (file `a.yml`
describes `status` in model `m`; file `b.yml` has the same column, with no
description, in a model with no `name` field) the first fix run cannot
apply its pending edit — the parent lookup fails — so nothing is written
and the second run reports the same single inconsistency instead of
zero. -/
theorem c5_counterexample :
    ¬ ((run_fix ex_parse ((run_fix ex_parse exFiles).2)).2 =
          (run_fix ex_parse exFiles).2 ∧
        (run_fix ex_parse ((run_fix ex_parse exFiles).2)).1 = 0) := by
  intro h
  have h1 : (run_fix ex_parse exFiles).2 = exFiles := by decide
  have h2 : (run_fix ex_parse exFiles).1 = 1 := by decide
  rcases h with ⟨hfiles, hcount⟩
  rw [h1] at hcount
  rw [h2] at hcount
  exact absurd hcount (by decide)
